import Mathlib

/-!
# Verification of the AVL-Trees string-key library

A shallow embedding of `src/AVLTrees_StringKeys/AVLTree_StringKeys.c`
(types from `AVLTree_StringKeys.h`), together with proofs and refutations
of the specification's claims about it.

Modelling conventions:
* A C string (`char *` key) is the list of its bytes before the NUL
  terminator, `Key := List Nat`; `strcmp` is embedded faithfully,
  including its stop-at-NUL behaviour.
* A node (`AVLStrNode`) carries its key, its `void *_data` payload
  (modelled as a `Nat`), and its cached `int _height` (modelled as `Int`;
  the code uses `-1` as the height of an absent child).  The
  parent-pointer field is represented implicitly: the code's upward
  rebalancing walks are embedded as the post-processing done while the
  recursion on the search path unwinds, which visits exactly the same
  nodes in the same (bottom-up) order.
* The container (`AVLStrTree`) is a root tree, a node count and a
  capacity, both `unsigned long int` in C, modelled as `Nat` (no
  reachable operation overflows them: inserts are rejected at
  `nodesCount == maxNodes` and `maxNodes ≤ ULONG_MAX`).
* `malloc` is a capability that can fail; `strInsert` takes an explicit
  `allocOk` flag.  A C execution with undefined behaviour (the null
  dereference `newNode->_father` in `_strBalanceInsert` when
  `_createStrNode` returned `NULL` on a non-empty tree) is modelled as
  `none`.
* Bit-flag option words (`int opts`/`type`) are embedded as `Int`, with
  the header's flag values, and `&`-tests on them exactly where the code
  tests them.
-/

namespace AVLStr

/-- A key: the bytes of a C string, terminator excluded. -/
abbrev Key := List Nat

/-- C `strcmp` on byte lists.  Like the C function it compares byte by
byte and stops either at the first differing byte (returning the signed
difference) or at a NUL byte (a `0` list element, or the end of a list,
which stands for the terminator). -/
def strcmp : Key → Key → Int
  | [], [] => 0
  | [], b :: _ => 0 - (b : Int)
  | a :: _, [] => (a : Int)
  | a :: s, b :: t => if a = b then (if a = 0 then 0 else strcmp s t) else (a : Int) - (b : Int)

/-- The node graph of an `AVLStrTree`, rooted at some `AVLStrNode`:
child pointers become subtrees, `_key`/`_data`/`_height` are stored at
the node.  `nil` is the `NULL` pointer. -/
inductive Tree where
  | nil : Tree
  | node (l : Tree) (key : Key) (data : Nat) (ht : Int) (r : Tree) : Tree
deriving DecidableEq

/-- `_strHeight`: `-1` for an absent node, else the cached `_height`. -/
def sH : Tree → Int
  | .nil => -1
  | .node _ _ _ h _ => h

/-- `_strBalanceFactor`: difference of the children's cached heights. -/
def bf : Tree → Int
  | .nil => 0
  | .node l _ _ _ r => sH l - sH r

/-- `_strUpdateHeight`: recompute the cached height from the children's
cached heights (`MAX(...) + 1`); no-op on an absent node. -/
def updH : Tree → Tree
  | .nil => .nil
  | .node l k d _ r => .node l k d (max (sH l) (sH r) + 1) r

/-- `_strRightRotation` (net structural effect).  The code swaps the
pivot's payload with its left child's, detaches the four subtrees with
`_strCut{Left,Right}Subtree` and reattaches them with
`_strInsertAs{Left,Right}Subtree`, then updates the height of the new
right child and finally of the pivot, in that order.  On a shape the
code never calls it on (no left child) it is the identity here; the C
code would dereference `NULL` there, but every call site guards the
shape. -/
def rotR : Tree → Tree
  | .node (.node ll lk ld lh lr) k d h r =>
      updH (.node ll lk ld h (updH (.node lr k d lh r)))
  | t => t

/-- `_strLeftRotation`, the mirror image of `rotR`. -/
def rotL : Tree → Tree
  | .node l k d h (.node rl rk rd rh rr) =>
      updH (.node (updH (.node l k d rh rl)) rk rd h rr)
  | t => t

/-- `_strRotate`: examine the cached balance factor and apply the LL,
LR, RR or RL correction; any balance factor other than `2` or `-2`
(including the out-of-range values stale heights can produce) is a
no-op. -/
def rotate (t : Tree) : Tree :=
  if bf t = 2 then
    match t with
    | .node l k d h r => if bf l ≥ 0 then rotR t else rotR (.node (rotL l) k d h r)
    | .nil => t
  else if bf t = -2 then
    match t with
    | .node l k d h r => if bf r ≤ 0 then rotL t else rotL (.node l k d h (rotR r))
    | .nil => t
  else t

/-- `strInsert`'s descent plus `_strBalanceInsert`'s upward walk.  The
walk starts at the new leaf's father, climbs while `|bf| < 2` updating
heights, and on meeting the first ancestor with `|bf| ≥ 2` stops and
applies `_strRotate` there, touching nothing above; the `Bool` is `true`
once the walk has stopped. -/
def insertGo (k : Key) (d : Nat) : Tree → Tree × Bool
  | .nil => (.node .nil k d 0 .nil, false)
  | .node l nk nd nh r =>
    if strcmp nk k ≥ 0 then
      match insertGo k d l with
      | (l', true) => (.node l' nk nd nh r, true)
      | (l', false) =>
        let t' := Tree.node l' nk nd nh r
        if 2 ≤ (bf t').natAbs then (rotate t', true) else (updH t', false)
    else
      match insertGo k d r with
      | (r', true) => (.node l nk nd nh r', true)
      | (r', false) =>
        let t' := Tree.node l nk nd nh r'
        if 2 ≤ (bf t').natAbs then (rotate t', true) else (updH t', false)

/-- One step of `_strBalanceDelete`'s walk: rotate at a node whose
cached balance factor has absolute value `≥ 2`, otherwise update its
height. -/
def delStep (t : Tree) : Tree :=
  if 2 ≤ (bf t).natAbs then rotate t else updH t

/-- `_strMaxKeySon` on a subtree followed by the payload swap of
`strDelete`'s two-children branch and `_strCutOneSonNode` on the
maximum node: returns the maximum node's payload and the subtree with
that payload removed.  In the one-son splice the surviving node object
keeps its own stale cached height and is *not* visited by
`_strBalanceDelete` (the walk starts at its father), which this
embedding reproduces; proper ancestors inside the subtree get a
`delStep` each, bottom-up. -/
def delMax : Tree → Key × Nat × Tree
  | .nil => ([], 0, .nil)
  | .node l k d h .nil =>
      match l with
      | .nil => (k, d, .nil)
      | .node ll lk ld _ lr => (k, d, .node ll lk ld h lr)
  | .node l k d h (.node rl rk rd rh rr) =>
      let m := delMax (.node rl rk rd rh rr)
      (m.1, m.2.1, delStep (.node l k d h m.2.2))

/-- The physical removal of a found node (`_strCutOneSonNode`, with the
two-children reduction through `_strMaxKeySon` and `_strSwapInfo`),
given the found node's fields.  In the one-child branches the surviving
node object keeps the removed position's stale cached height `nh` and
gets no `delStep`, because `_strBalanceDelete` starts at the *cut
node's* father (`node->_father`), exactly as in the C code; in the
two-children branch the found node is an ancestor of the splice point,
so it does get its `delStep`. -/
def removeNode (l : Tree) (nk : Key) (nd : Nat) (nh : Int) (r : Tree) : Tree :=
  match l, r with
  | .nil, .nil => .nil
  | .node ll lk ld _ lr, .nil => .node ll lk ld nh lr
  | .nil, .node rl rk rd _ rr => .node rl rk rd nh rr
  | .node all alk ald alh alr, .node brl brk brd brh brr =>
    let m := delMax (.node all alk ald alh alr)
    delStep (.node m.2.2 m.1 m.2.1 nh (.node brl brk brd brh brr))

/-- `strDelete`'s search (`_searchStrNode`), physical removal and
`_strBalanceDelete` walk, fused into one recursion over the search
path.  `none` means the key was not found; every proper ancestor of
the found node receives its `delStep` as the recursion unwinds,
bottom-up, exactly the order of the C upward walk. -/
def deleteGo (k : Key) : Tree → Option Tree
  | .nil => none
  | .node l nk nd nh r =>
    if strcmp nk k > 0 then
      match deleteGo k l with
      | none => none
      | some l' => some (delStep (.node l' nk nd nh r))
    else if strcmp nk k < 0 then
      match deleteGo k r with
      | none => none
      | some r' => some (delStep (.node l nk nd nh r'))
    else
      some (removeNode l nk nd nh r)

/-- The container type `AVLStrTree`. -/
structure AVLStrTree where
  root : Tree
  nodesCount : Nat
  maxNodes : Nat
deriving DecidableEq

/-- `ULONG_MAX` on the 64-bit platform the code targets. -/
def ULONG_MAX : Nat := 18446744073709551615

/-- `createStrTree` (the successful-allocation outcome). -/
def createStrTree : AVLStrTree := ⟨.nil, 0, ULONG_MAX⟩

/-- `strInsert`.  `allocOk` is whether `malloc` succeeds inside
`_createStrNode`.  The result is `some (returnValue, newContainer)`, or
`none` when the C code's behaviour is undefined: with a failed
allocation on a non-empty tree the unchecked `newNode` is `NULL` and
`_strBalanceInsert` dereferences `newNode->_father`.  With a failed
allocation on an empty tree the code stores `NULL` in `_root`
(unchanged) but still increments `nodesCount` and returns it. -/
def strInsert (allocOk : Bool) (tree : Option AVLStrTree) (newKey : Option Key)
    (newData : Nat) : Option (Nat × Option AVLStrTree) :=
  match tree, newKey with
  | none, _ => some (0, tree)
  | some _, none => some (0, tree)
  | some t, some k =>
    if t.nodesCount = t.maxNodes then some (0, some t)
    else if allocOk then
      match t.root with
      | .nil =>
          some (t.nodesCount + 1,
            some ⟨.node .nil k newData 0 .nil, t.nodesCount + 1, t.maxNodes⟩)
      | .node l nk nd nh r =>
          some (t.nodesCount + 1,
            some ⟨(insertGo k newData (.node l nk nd nh r)).1, t.nodesCount + 1, t.maxNodes⟩)
    else
      match t.root with
      | .nil => some (t.nodesCount + 1, some ⟨.nil, t.nodesCount + 1, t.maxNodes⟩)
      | .node _ _ _ _ _ => none

/-- `strDelete`.  Returns the C return value (`1` found, `0` not found
or invalid input) and the container afterwards.  The buffer-release
`opts` bits do not affect the structure. -/
def strDelete (tree : Option AVLStrTree) (key : Option Key) (opts : Int) :
    Int × Option AVLStrTree :=
  if opts < 0 then (0, tree)
  else
    match tree, key with
    | none, _ => (0, tree)
    | some _, none => (0, tree)
    | some t, some k =>
      match deleteGo k t.root with
      | none => (0, some t)
      | some root' =>
        let c' := t.nodesCount - 1
        (1, some ⟨if c' = 0 then .nil else root', c', t.maxNodes⟩)

/-- `_searchStrNode`: binary-search descent stopping at the first node
comparing equal; returns that node (as the subtree it roots). -/
def searchStrNode (k : Key) : Tree → Option Tree
  | .nil => none
  | .node l nk nd nh r =>
    if strcmp nk k > 0 then searchStrNode k l
    else if strcmp nk k < 0 then searchStrNode k r
    else some (.node l nk nd nh r)

/-- The `void *` returned by `strSearch`: `NULL`, a `_data` payload, or
a node handle. -/
inductive SearchOut where
  | null : SearchOut
  | data (d : Nat) : SearchOut
  | nodeRes (t : Tree) : SearchOut
deriving DecidableEq

def DELETE_FREE_DATA : Nat := 1
def DELETE_FREE_KEYS : Nat := 2
def SEARCH_DATA : Nat := 4
def SEARCH_KEYS : Nat := 8
def SEARCH_NODES : Nat := 16
def DFS_PRE_ORDER : Nat := 32
def DFS_IN_ORDER : Nat := 64
def DFS_POST_ORDER : Nat := 128
def BFS_LEFT_FIRST : Nat := 256
def BFS_RIGHT_FIRST : Nat := 512

/-- An `opts & MASK` test.  Every such test in the code runs on a
non-negative `opts`, where `Int.toNat` is exact. -/
def hasFlag (opts : Int) (mask : Nat) : Bool := opts.toNat &&& mask ≠ 0

/-- `_data` of a node (`0` for the absent node, never consulted). -/
def nodeData : Tree → Nat
  | .nil => 0
  | .node _ _ d _ _ => d

/-- `strSearch`.  Mirrors the code exactly: after the sanity check it
tests `opts & SEARCH_DATA`, then `opts & SEARCH_NODES`, and otherwise
returns `NULL` — there is no `SEARCH_KEYS` branch in the C function. -/
def strSearch (tree : Option AVLStrTree) (key : Key) (opts : Int) : SearchOut :=
  if opts ≤ 0 then .null
  else
    match tree with
    | none => .null
    | some t =>
      match searchStrNode key t.root with
      | some n =>
        if hasFlag opts SEARCH_DATA then .data (nodeData n)
        else if hasFlag opts SEARCH_NODES then .nodeRes n
        else .null
      | none => .null

/-- One projected output slot of a traversal. -/
inductive Proj where
  | nodeP (t : Tree) : Proj
  | keyP (k : Key) : Proj
  | dataP (d : Nat) : Proj
deriving DecidableEq

/-- The per-node visit of the traversal routines: `SEARCH_NODES` is
tested first, then `SEARCH_KEYS`, then `SEARCH_DATA`; `intOpt` is
always exactly one of the three by construction, so the final branch is
only reached for `SEARCH_DATA`. -/
def projOf (intOpt : Nat) : Tree → Proj
  | .nil => .dataP 0
  | .node l k d h r =>
    if intOpt &&& SEARCH_NODES ≠ 0 then .nodeP (.node l k d h r)
    else if intOpt &&& SEARCH_KEYS ≠ 0 then .keyP k
    else .dataP d

/-- `_strInODFS`: the pointer-stepping recursion writes exactly the
in-order sequence of projections into consecutive slots. -/
def inODFS (intOpt : Nat) : Tree → List Proj
  | .nil => []
  | .node l k d h r =>
      inODFS intOpt l ++ projOf intOpt (.node l k d h r) :: inODFS intOpt r

/-- `_strPreODFS`. -/
def preODFS (intOpt : Nat) : Tree → List Proj
  | .nil => []
  | .node l k d h r =>
      projOf intOpt (.node l k d h r) :: (preODFS intOpt l ++ preODFS intOpt r)

/-- `_strPostODFS`. -/
def postODFS (intOpt : Nat) : Tree → List Proj
  | .nil => []
  | .node l k d h r =>
      postODFS intOpt l ++ postODFS intOpt r ++ [projOf intOpt (.node l k d h r)]

/-- `strDFS`.  Projection flags are resolved before order flags, each
by a first-tested-wins `if` chain (`DATA`, `KEYS`, `NODES`; `PRE`,
`IN`, `POST`); allocation of the output array is assumed to succeed. -/
def strDFS (tree : Option AVLStrTree) (type opts : Int) : Option (List Proj) :=
  if type ≤ 0 ∨ opts ≤ 0 then none
  else
    match tree with
    | none => none
    | some t =>
      if t.root = Tree.nil then none
      else
        match (if hasFlag opts SEARCH_DATA then some SEARCH_DATA
          else if hasFlag opts SEARCH_KEYS then some SEARCH_KEYS
          else if hasFlag opts SEARCH_NODES then some SEARCH_NODES
          else none : Option Nat) with
        | none => none
        | some io =>
          if hasFlag type DFS_PRE_ORDER then some (preODFS io t.root)
          else if hasFlag type DFS_IN_ORDER then some (inODFS io t.root)
          else if hasFlag type DFS_POST_ORDER then some (postODFS io t.root)
          else none

/-- Number of nodes reachable from a root. -/
def size : Tree → Nat
  | .nil => 0
  | .node l _ _ _ r => size l + size r + 1

/-- The queue-driven loop of `strBFS`.  The C loop runs exactly
`nodesCount` times over the output array used as a queue; the fuel
argument is that count.  Only non-`NULL` children are enqueued. -/
def bfsGo (intOpt : Nat) (leftFirst : Bool) : Nat → List Tree → List Proj
  | 0, _ => []
  | _ + 1, [] => []
  | n + 1, t :: q' =>
    match t with
    | .nil => projOf intOpt .nil :: bfsGo intOpt leftFirst n q'
    | .node l k d h r =>
      projOf intOpt (.node l k d h r) ::
        bfsGo intOpt leftFirst n
          (q' ++ (if leftFirst then [l, r] else [r, l]).filter (fun s => s ≠ Tree.nil))

/-- `strBFS`.  All sanity checks are up front; the direction and
projection are then resolved first-tested-wins (`LEFT` before `RIGHT`,
`DATA` before `KEYS` before `NODES`). -/
def strBFS (tree : Option AVLStrTree) (type opts : Int) : Option (List Proj) :=
  match tree with
  | none => none
  | some t =>
    if t.root = Tree.nil ∨ type ≤ 0 ∨ opts ≤ 0 ∨
        ¬ (hasFlag type BFS_LEFT_FIRST ∨ hasFlag type BFS_RIGHT_FIRST) ∨
        ¬ (hasFlag opts SEARCH_KEYS ∨ hasFlag opts SEARCH_DATA ∨ hasFlag opts SEARCH_NODES)
    then none
    else
      let io := if hasFlag opts SEARCH_DATA then SEARCH_DATA
        else if hasFlag opts SEARCH_KEYS then SEARCH_KEYS
        else SEARCH_NODES
      some (bfsGo io (hasFlag type BFS_LEFT_FIRST) t.nodesCount [t.root])

/-- A public-surface operation on a container: insert or delete of a
key (the payload a delete frees is irrelevant to the structure). -/
inductive Op where
  | ins (k : Key) : Op
  | del (k : Key) : Op
deriving DecidableEq

/-- Run operations with succeeding allocation.  The `n`-th operation
inserts payload `n`, so payloads record insertion order (distinct and
increasing), which lets the duplicate-order claims be stated. -/
def runOpsFrom : AVLStrTree → Nat → List Op → AVLStrTree
  | t, _, [] => t
  | t, n, Op.ins k :: ops =>
      match strInsert true (some t) (some k) n with
      | some (_, some t') => runOpsFrom t' (n + 1) ops
      | _ => runOpsFrom t (n + 1) ops
  | t, n, Op.del k :: ops =>
      match (strDelete (some t) (some k) 0).2 with
      | some t' => runOpsFrom t' (n + 1) ops
      | none => runOpsFrom t (n + 1) ops

/-- Run operations from a fresh `createStrTree`. -/
def runOps (ops : List Op) : AVLStrTree := runOpsFrom createStrTree 0 ops

/-- The true height of a subtree (`-1` for the absent tree), as opposed
to the cached `_height` fields. -/
def realH : Tree → Int
  | .nil => -1
  | .node l _ _ _ r => max (realH l) (realH r) + 1

/-- The AVL balance invariant on true heights: every node's balance
factor has absolute value at most 1. -/
def balancedB : Tree → Bool
  | .nil => true
  | .node l _ _ _ r =>
      decide ((realH l - realH r).natAbs ≤ 1) && balancedB l && balancedB r

/-- Cached-height consistency: every node's stored `_height` equals
`1 + max` of its children's true heights (so cached and true heights
agree everywhere). -/
def heightsOk : Tree → Bool
  | .nil => true
  | .node l _ _ h r =>
      decide (h = max (realH l) (realH r) + 1) && heightsOk l && heightsOk r

/-- The in-order sequence of (key, payload) entries of a subtree. -/
def entries : Tree → List (Key × Nat)
  | .nil => []
  | .node l k d _ r => entries l ++ (k, d) :: entries r

/-- The strict order in which entries are laid out in order inside any
tree the operations build: strictly smaller key, or equal key
(`strcmp = 0`) with strictly *larger* payload.  Payloads record
insertion time in `runOps`, so equal keys appear in reverse insertion
order exactly when the in-order entry list is `Pairwise eLT`. -/
def eLT (a b : Key × Nat) : Prop :=
  strcmp a.1 b.1 < 0 ∨ (strcmp a.1 b.1 = 0 ∧ b.2 < a.2)

instance (a b : Key × Nat) : Decidable (eLT a b) := by
  unfold eLT; infer_instance

/-- The ordering invariant on a subtree. -/
def SortedE (t : Tree) : Prop := (entries t).Pairwise eLT

instance (t : Tree) : Decidable (SortedE t) := by
  unfold SortedE; infer_instance

/-- All payloads in the tree are below `n` (the next insertion time). -/
def Fresh (n : Nat) (t : Tree) : Prop := ∀ e ∈ entries t, e.2 < n

/-- Number of nodes whose key compares equal (`strcmp = 0`) to `k`. -/
def matchCount (k : Key) (t : Tree) : Nat :=
  ((entries t).filter (fun e => strcmp e.1 k = 0)).length

/-- The inductive invariant of a container reachable by running
operations: ordered entries, fresh payload bound, and a node count
that equals the number of reachable nodes. -/
def Inv (t : AVLStrTree) (n : Nat) : Prop :=
  SortedE t.root ∧ Fresh n t.root ∧ t.nodesCount = size t.root

/-- Node-identity-level tree for the rotation functions: like `Tree`
but every node also carries the identity of the `AVLStrNode` object
holding it, so that `_strSwapInfo`'s payload relocation between fixed
node objects can be observed. -/
inductive ITree where
  | nil : ITree
  | node (l : ITree) (id : Nat) (key : Key) (data : Nat) (ht : Int) (r : ITree) : ITree
deriving DecidableEq

/-- `_strHeight` on identity-level trees. -/
def iSH : ITree → Int
  | .nil => -1
  | .node _ _ _ _ h _ => h

/-- `_strUpdateHeight` on identity-level trees. -/
def iUpdH : ITree → ITree
  | .nil => .nil
  | .node l i k d _ r => .node l i k d (max (iSH l) (iSH r) + 1) r

/-- `_strRightRotation` at the identity level, step for step: swap the
pivot's payload with its left child's (`_strSwapInfo`; the two node
objects keep their identities and their places in the parent links),
cut the right subtree, the left child, and the left child's two
subtrees, reattach them (`rTree` as right of `lTree`, `lTree_r` as left
of `lTree`, `lTree` as right of the pivot, `lTree_l` as left of the
pivot), then update the height of the pivot's new right son and of the
pivot, in that order. -/
def iRotR : ITree → ITree
  | .node (.node ll lid lk ld lh lr) nid k d h r =>
      iUpdH (.node ll nid lk ld h (iUpdH (.node lr lid k d lh r)))
  | t => t

/-- `_strLeftRotation` at the identity level, the mirror image. -/
def iRotL : ITree → ITree
  | .node l nid k d h (.node rl rid rk rd rh rr) =>
      iUpdH (.node (iUpdH (.node l rid k d rh rl)) nid rk rd h rr)
  | t => t

/-- A pure payload tree: what a subtree looks like when node
identities and cached heights are forgotten. -/
inductive PTree where
  | nil : PTree
  | node (l : PTree) (key : Key) (data : Nat) (r : PTree) : PTree
deriving DecidableEq

/-- Forget identities and cached heights. -/
def payload : ITree → PTree
  | .nil => .nil
  | .node l _ k d _ r => .node (payload l) k d (payload r)

/-- Modelled from the spec: the classical AVL right rotation on
payload trees — the left child becomes the subtree root, keeping its
left subtree; the former root descends to the right with the left
child's right subtree and its own right subtree. -/
def classicalRotR : PTree → PTree
  | .node (.node ll lk ld lr) k d r => .node ll lk ld (.node lr k d r)
  | t => t

/-- Modelled from the spec: the classical AVL left rotation on payload
trees, the mirror image of `classicalRotR`. -/
def classicalRotL : PTree → PTree
  | .node l k d (.node rl rk rd rr) => .node (.node l k d rl) rk rd rr
  | t => t

/-- The multiset of node-object identities of a subtree. -/
def ids : ITree → Multiset Nat
  | .nil => 0
  | .node l i _ _ _ r => ids l + (i ::ₘ ids r)

/-- The multiset of (identity, key, payload) associations: which node
object holds which entry. -/
def idPayloads : ITree → Multiset (Nat × Key × Nat)
  | .nil => 0
  | .node l i k d _ r => idPayloads l + ((i, k, d) ::ₘ idPayloads r)

/-- Identity of the subtree's root object, if any. -/
def rootId : ITree → Option Nat
  | .nil => none
  | .node _ i _ _ _ _ => some i

/-- Resolution of a projection-axis option word by the code's
first-tested-wins `if` chains (`SEARCH_DATA`, then `SEARCH_KEYS`, then
`SEARCH_NODES`); `0` when no flag of the axis is set. -/
def canonProj (opts : Int) : Int :=
  if hasFlag opts SEARCH_DATA then (SEARCH_DATA : Nat)
  else if hasFlag opts SEARCH_KEYS then (SEARCH_KEYS : Nat)
  else if hasFlag opts SEARCH_NODES then (SEARCH_NODES : Nat)
  else 0

/-- Resolution of the DFS order axis (`PRE`, then `IN`, then `POST`). -/
def canonOrder (type : Int) : Int :=
  if hasFlag type DFS_PRE_ORDER then (DFS_PRE_ORDER : Nat)
  else if hasFlag type DFS_IN_ORDER then (DFS_IN_ORDER : Nat)
  else if hasFlag type DFS_POST_ORDER then (DFS_POST_ORDER : Nat)
  else 0

/-- Resolution of the BFS direction axis (`LEFT` before `RIGHT`). -/
def canonDir (type : Int) : Int :=
  if hasFlag type BFS_LEFT_FIRST then (BFS_LEFT_FIRST : Nat)
  else if hasFlag type BFS_RIGHT_FIRST then (BFS_RIGHT_FIRST : Nat)
  else 0

/-! ## Order lemmas for the embedded `strcmp` -/

theorem strcmp_self : ∀ s : Key, strcmp s s = 0
  | [] => rfl
  | a :: s => by simp [strcmp, strcmp_self s]

theorem strcmp_neg : ∀ s t : Key, strcmp t s = -strcmp s t
  | [], [] => rfl
  | [], _ :: _ => by simp [strcmp]
  | _ :: _, [] => by simp [strcmp]
  | a :: s, b :: t => by
    by_cases hab : a = b
    · subst hab
      by_cases h0 : a = 0 <;> simp [strcmp, h0, strcmp_neg s t]
    · have hba : b ≠ a := fun h => hab h.symm
      simp only [strcmp, if_neg hab, if_neg hba]
      omega

theorem strcmp_trans (a : Key) : ∀ b c : Key,
    (strcmp a b ≤ 0 → strcmp b c ≤ 0 → strcmp a c ≤ 0) ∧
    (strcmp a b ≤ 0 → strcmp b c < 0 → strcmp a c < 0) ∧
    (strcmp a b < 0 → strcmp b c ≤ 0 → strcmp a c < 0) := by
  induction a with
  | nil =>
    intro b c
    refine ⟨fun _ _ => ?_, fun hab hbc => ?_, fun hab hbc => ?_⟩
    · cases c with
      | nil => simp [strcmp]
      | cons z zs => simp [strcmp]
    · -- strcmp b c < 0 forces c nonempty with positive head
      cases b with
      | nil => exact hbc
      | cons y ys =>
        cases c with
        | nil => exfalso; simp only [strcmp] at hbc; omega
        | cons z zs =>
          simp only [strcmp] at hbc ⊢
          by_cases hyz : y = z
          · subst hyz
            by_cases h0 : y = 0
            · rw [if_pos rfl, if_pos h0] at hbc; omega
            · omega
          · rw [if_neg hyz] at hbc; omega
    · cases b with
      | nil => exfalso; simp only [strcmp] at hab; omega
      | cons y ys =>
        simp only [strcmp] at hab
        cases c with
        | nil => exfalso; simp only [strcmp] at hbc; omega
        | cons z zs =>
          simp only [strcmp] at hbc ⊢
          by_cases hyz : y = z
          · subst hyz; omega
          · rw [if_neg hyz] at hbc; omega
  | cons x xs ih =>
    intro b c
    cases b with
    | nil =>
      refine ⟨fun hab _ => ?_, fun hab hbc => ?_, fun hab _ => ?_⟩
      · simp only [strcmp] at hab
        cases c with
        | nil => simpa [strcmp] using hab
        | cons z zs =>
          simp only [strcmp]
          have hx : x = 0 := by omega
          subst hx
          by_cases hz : 0 = z
          · rw [if_pos hz, if_pos rfl]
          · rw [if_neg hz]; omega
      · simp only [strcmp] at hab
        cases c with
        | nil => exfalso; simp only [strcmp] at hbc; omega
        | cons z zs =>
          simp only [strcmp] at hbc ⊢
          have hx : x = 0 := by omega
          subst hx
          have hz : (0 : Nat) ≠ z := by omega
          rw [if_neg hz]; omega
      · exfalso; simp only [strcmp] at hab; omega
    | cons y ys =>
      cases c with
      | nil =>
        refine ⟨fun hab hbc => ?_, fun _ hbc => ?_, fun hab hbc => ?_⟩
        · simp only [strcmp] at hab hbc ⊢
          by_cases hxy : x = y
          · subst hxy; omega
          · rw [if_neg hxy] at hab; omega
        · exfalso; simp only [strcmp] at hbc; omega
        · simp only [strcmp] at hab hbc ⊢
          by_cases hxy : x = y
          · subst hxy
            have hx : x = 0 := by omega
            rw [if_pos rfl, if_pos hx] at hab
            omega
          · rw [if_neg hxy] at hab; omega
      | cons z zs =>
        by_cases hxy : x = y <;> by_cases hyz : y = z
        · -- x = y = z
          subst hxy; subst hyz
          by_cases h0 : x = 0
          · refine ⟨fun _ _ => ?_, fun _ hbc => ?_, fun hab _ => ?_⟩
            · simp [strcmp, h0]
            · exfalso; simp only [strcmp, if_pos rfl, if_pos h0] at hbc; omega
            · exfalso; simp only [strcmp, if_pos rfl, if_pos h0] at hab; omega
          · simp only [strcmp, if_pos rfl, if_neg h0]
            exact ih ys zs
        · -- x = y ≠ z
          subst hxy
          refine ⟨fun hab hbc => ?_, fun hab hbc => ?_, fun hab hbc => ?_⟩ <;>
            simp only [strcmp, if_neg hyz] at hbc ⊢ <;> omega
        · -- x ≠ y = z
          subst hyz
          refine ⟨fun hab hbc => ?_, fun hab hbc => ?_, fun hab hbc => ?_⟩ <;>
            simp only [strcmp, if_neg hxy] at hab ⊢ <;> omega
        · -- x ≠ y ≠ z
          by_cases hxz : x = z
          · subst hxz
            refine ⟨fun hab hbc => ?_, fun hab hbc => ?_, fun hab hbc => ?_⟩ <;>
              (exfalso; simp only [strcmp, if_neg hxy, if_neg hyz] at hab hbc; omega)
          · refine ⟨fun hab hbc => ?_, fun hab hbc => ?_, fun hab hbc => ?_⟩ <;>
              simp only [strcmp, if_neg hxy, if_neg hyz, if_neg hxz] at hab hbc ⊢ <;>
              omega

/-! ## In-order entry sequences are preserved by the height machinery -/

theorem entries_updH (t : Tree) : entries (updH t) = entries t := by
  cases t <;> rfl

theorem entries_rotR : ∀ t : Tree, entries (rotR t) = entries t
  | .nil => rfl
  | .node .nil _ _ _ _ => rfl
  | .node (.node ll lk ld lh lr) k d h r => by
      simp [rotR, entries, entries_updH, updH]

theorem entries_rotL : ∀ t : Tree, entries (rotL t) = entries t
  | .nil => rfl
  | .node _ _ _ _ .nil => rfl
  | .node l k d h (.node rl rk rd rh rr) => by
      simp [rotL, entries, entries_updH, updH]

theorem entries_rotate (t : Tree) : entries (rotate t) = entries t := by
  cases t with
  | nil => rfl
  | node l k d h r =>
    unfold rotate
    by_cases h2 : bf (Tree.node l k d h r) = 2
    · rw [if_pos h2]
      dsimp only
      by_cases hl : bf l ≥ 0
      · rw [if_pos hl]; exact entries_rotR _
      · rw [if_neg hl]
        rw [entries_rotR]
        simp [entries, entries_rotL]
    · rw [if_neg h2]
      by_cases hm2 : bf (Tree.node l k d h r) = -2
      · rw [if_pos hm2]
        dsimp only
        by_cases hr : bf r ≤ 0
        · rw [if_pos hr]; exact entries_rotL _
        · rw [if_neg hr]
          rw [entries_rotL]
          simp [entries, entries_rotR]
      · rw [if_neg hm2]

theorem entries_delStep (t : Tree) : entries (delStep t) = entries t := by
  unfold delStep
  by_cases h : 2 <= (bf t).natAbs
  · rw [if_pos h]; exact entries_rotate t
  · rw [if_neg h]; exact entries_updH t

theorem entries_eq_nil : ∀ t : Tree, entries t = [] ↔ t = .nil
  | .nil => by simp [entries]
  | .node l k d h r => by simp [entries]

theorem size_eq_length_entries : ∀ t : Tree, size t = (entries t).length
  | .nil => rfl
  | .node l _ _ _ r => by
      simp [size, entries, size_eq_length_entries l, size_eq_length_entries r]
      omega

/-! ## Decomposing the ordering invariant at a node -/

theorem sortedE_node {l r : Tree} {nk : Key} {nd : Nat} {nh : Int} :
    SortedE (.node l nk nd nh r) ↔
      SortedE l ∧ SortedE r ∧ (∀ e ∈ entries l, eLT e (nk, nd)) ∧
      (∀ e ∈ entries r, eLT (nk, nd) e) ∧
      (∀ e ∈ entries l, ∀ e' ∈ entries r, eLT e e') := by
  unfold SortedE
  simp only [entries, List.pairwise_append, List.pairwise_cons, List.mem_cons]
  constructor
  · rintro ⟨hl, ⟨hrr, hr⟩, hcross⟩
    exact ⟨hl, hr, fun e he => hcross e he (nk, nd) (Or.inl rfl), hrr,
      fun e he e' he' => hcross e he e' (Or.inr he')⟩
  · rintro ⟨hl, hr, hlroot, hrootr, hlr⟩
    refine ⟨hl, ⟨hrootr, hr⟩, fun e he b hb => ?_⟩
    rcases hb with hb | hb
    · exact hb ▸ hlroot e he
    · exact hlr e he b hb

theorem fresh_node {n : Nat} {l r : Tree} {nk : Key} {nd : Nat} {nh : Int} :
    Fresh n (.node l nk nd nh r) ↔ Fresh n l ∧ nd < n ∧ Fresh n r := by
  unfold Fresh
  simp only [entries, List.mem_append, List.mem_cons]
  constructor
  · intro h
    exact ⟨fun e he => h e (Or.inl he), h (nk, nd) (Or.inr (Or.inl rfl)),
      fun e he => h e (Or.inr (Or.inr he))⟩
  · rintro ⟨h1, h2, h3⟩ e (he | he | he)
    · exact h1 e he
    · exact he ▸ h2
    · exact h3 e he

/-! ## The insertion descent places the new entry at its ordered position -/

theorem insertGo_entries (k : Key) (d : Nat) :
    ∀ t : Tree, SortedE t → Fresh d t →
      ∃ A B, entries t = A ++ B ∧
        entries (insertGo k d t).1 = A ++ (k, d) :: B ∧
        (∀ e ∈ A, strcmp e.1 k < 0) ∧
        (∀ e ∈ B, eLT (k, d) e) := by
  intro t
  induction t with
  | nil =>
    intro _ _
    exact ⟨[], [], rfl, rfl, by simp, by simp⟩
  | node l nk nd nh r ihl ihr =>
    intro hs hf
    rw [sortedE_node] at hs
    obtain ⟨hsl, hsr, hlroot, hrootr, hlr⟩ := hs
    rw [fresh_node] at hf
    obtain ⟨hfl, hfd, hfr⟩ := hf
    by_cases hcmp : strcmp nk k ≥ 0
    · obtain ⟨A, B, h1, h2, hA, hB⟩ := ihl hsl hfl
      have hk : strcmp k nk ≤ 0 := by
        have := strcmp_neg nk k
        omega
      have hres : entries (insertGo k d (.node l nk nd nh r)).1 =
          entries (insertGo k d l).1 ++ (nk, nd) :: entries r := by
        rw [insertGo, if_pos hcmp]
        rcases hgo : insertGo k d l with ⟨l', flag⟩
        cases flag
        · dsimp only
          by_cases hb : 2 ≤ (bf (Tree.node l' nk nd nh r)).natAbs
          · rw [if_pos hb]
            simp [entries_rotate, entries, hgo]
          · rw [if_neg hb]
            simp [entries_updH, entries, updH, hgo]
        · simp [entries, hgo]
      refine ⟨A, B ++ (nk, nd) :: entries r, ?_, ?_, hA, ?_⟩
      · rw [entries, h1, List.append_assoc]
      · rw [hres, h2, List.append_assoc]; rfl
      · intro e he
        rcases List.mem_append.1 he with he | he
        · exact hB e he
        · rcases List.mem_cons.1 he with he | he
          · subst he
            rcases lt_or_eq_of_le hk with hlt | heq
            · exact Or.inl hlt
            · exact Or.inr ⟨heq, hfd⟩
          · rcases hrootr e he with hlt | ⟨heq, _⟩
            · exact Or.inl ((strcmp_trans k nk e.1).2.1 hk hlt)
            · have hle : strcmp k e.1 ≤ 0 :=
                (strcmp_trans k nk e.1).1 hk (le_of_eq heq)
              rcases lt_or_eq_of_le hle with hlt | heq2
              · exact Or.inl hlt
              · exact Or.inr ⟨heq2, hfr e he⟩
    · have hlt : strcmp nk k < 0 := by omega
      obtain ⟨A, B, h1, h2, hA, hB⟩ := ihr hsr hfr
      have hres : entries (insertGo k d (.node l nk nd nh r)).1 =
          entries l ++ (nk, nd) :: entries (insertGo k d r).1 := by
        rw [insertGo, if_neg hcmp]
        rcases hgo : insertGo k d r with ⟨r', flag⟩
        cases flag
        · dsimp only
          by_cases hb : 2 ≤ (bf (Tree.node l nk nd nh r')).natAbs
          · rw [if_pos hb]
            simp [entries_rotate, entries, hgo]
          · rw [if_neg hb]
            simp [entries_updH, entries, updH, hgo]
        · simp [entries, hgo]
      refine ⟨entries l ++ (nk, nd) :: A, B, ?_, ?_, ?_, hB⟩
      · rw [entries, h1, List.append_assoc]; rfl
      · rw [hres, h2, List.append_assoc]; rfl
      · intro e he
        rcases List.mem_append.1 he with he | he
        · have hle : strcmp e.1 nk ≤ 0 := by
            rcases hlroot e he with h | ⟨h, _⟩
            · exact le_of_lt h
            · exact le_of_eq h
          exact (strcmp_trans e.1 nk k).2.1 hle hlt
        · rcases List.mem_cons.1 he with he | he
          · exact he ▸ hlt
          · exact hA e he

/-- Sortedness, freshness and entry count after an insertion descent. -/
theorem insertGo_inv (k : Key) (d : Nat) (t : Tree) (hs : SortedE t) (hf : Fresh d t) :
    SortedE (insertGo k d t).1 ∧ (∀ m, d < m → Fresh m (insertGo k d t).1) ∧
    (entries (insertGo k d t).1).length = (entries t).length + 1 := by
  obtain ⟨A, B, h1, h2, hA, hB⟩ := insertGo_entries k d t hs hf
  have hst : (A ++ B).Pairwise eLT := h1 ▸ hs
  have hpa := (List.pairwise_append.1 hst).1
  have hpb := (List.pairwise_append.1 hst).2.1
  have hcross := (List.pairwise_append.1 hst).2.2
  refine ⟨?_, ?_, ?_⟩
  · rw [SortedE, h2, List.pairwise_append]
    refine ⟨hpa, List.pairwise_cons.2 ⟨hB, hpb⟩, ?_⟩
    intro a ha b hb
    rcases List.mem_cons.1 hb with hb | hb
    · exact hb ▸ Or.inl (hA a ha)
    · exact hcross a ha b hb
  · intro m hm e he
    rw [h2] at he
    rcases List.mem_append.1 he with he | he
    · have : e ∈ entries t := h1 ▸ List.mem_append.2 (Or.inl he)
      exact lt_trans (hf e this) hm
    · rcases List.mem_cons.1 he with he | he
      · rw [he]; exact hm
      · have : e ∈ entries t := h1 ▸ List.mem_append.2 (Or.inr he)
        exact lt_trans (hf e this) hm
  · rw [h2, h1]
    simp
    omega

/-! ## The deletion path removes exactly one entry -/

theorem delMax_entries : ∀ t : Tree, t ≠ .nil →
    entries t = entries (delMax t).2.2 ++ [((delMax t).1, (delMax t).2.1)]
  | .nil, h => absurd rfl h
  | .node l k d h .nil, _ => by
      cases l with
      | nil => simp [delMax, entries]
      | node ll lk ld lh lr => simp [delMax, entries]
  | .node l k d h (.node rl rk rd rh rr), _ => by
      have ih := delMax_entries (.node rl rk rd rh rr) (by simp)
      conv_lhs => rw [entries, ih]
      simp only [delMax, entries_delStep, entries]
      simp

theorem deleteGo_entries (k : Key) : ∀ t t' : Tree, deleteGo k t = some t' →
    ∃ A B k0 d0, strcmp k0 k = 0 ∧ entries t = A ++ (k0, d0) :: B ∧
      entries t' = A ++ B := by
  intro t
  induction t with
  | nil => intro t' h; simp [deleteGo] at h
  | node l nk nd nh r ihl ihr =>
    intro t' h
    by_cases hgt : strcmp nk k > 0
    · rw [deleteGo, if_pos hgt] at h
      rcases hl : deleteGo k l with _ | l'
      · rw [hl] at h; simp at h
      · rw [hl] at h
        simp only [Option.some.injEq] at h
        obtain ⟨A, B, k0, d0, hk0, h1, h2⟩ := ihl l' hl
        refine ⟨A, B ++ (nk, nd) :: entries r, k0, d0, hk0, ?_, ?_⟩
        · rw [entries, h1, List.append_assoc]; rfl
        · rw [← h, entries_delStep, entries, h2, List.append_assoc]
    · rw [deleteGo, if_neg hgt] at h
      by_cases hlt : strcmp nk k < 0
      · rw [if_pos hlt] at h
        rcases hr : deleteGo k r with _ | r'
        · rw [hr] at h; simp at h
        · rw [hr] at h
          simp only [Option.some.injEq] at h
          obtain ⟨A, B, k0, d0, hk0, h1, h2⟩ := ihr r' hr
          refine ⟨entries l ++ (nk, nd) :: A, B, k0, d0, hk0, ?_, ?_⟩
          · rw [entries, h1, List.append_assoc]; rfl
          · rw [← h, entries_delStep, entries, h2, List.append_assoc]; rfl
      · rw [if_neg hlt] at h
        have heq : strcmp nk k = 0 := by omega
        simp only [Option.some.injEq] at h
        subst h
        cases l with
        | nil =>
          cases r with
          | nil =>
            exact ⟨[], [], nk, nd, heq, by simp [entries], by simp [removeNode, entries]⟩
          | node rl rk rd rh rr =>
            exact ⟨[], entries (.node rl rk rd rh rr), nk, nd, heq, by simp [entries],
              by simp [removeNode, entries]⟩
        | node ll lk ld lh lr =>
          cases r with
          | nil =>
            exact ⟨entries (.node ll lk ld lh lr), [], nk, nd, heq, by simp [entries],
              by simp [removeNode, entries]⟩
          | node rl rk rd rh rr =>
            have hml := delMax_entries (.node ll lk ld lh lr) (by simp)
            refine ⟨entries (delMax (.node ll lk ld lh lr)).2.2 ++
              [((delMax (.node ll lk ld lh lr)).1, (delMax (.node ll lk ld lh lr)).2.1)],
              entries (.node rl rk rd rh rr), nk, nd, heq, ?_, ?_⟩
            · conv_lhs => rw [entries, hml]
            · rw [show removeNode (.node ll lk ld lh lr) nk nd nh (.node rl rk rd rh rr) =
                delStep (.node (delMax (.node ll lk ld lh lr)).2.2
                  (delMax (.node ll lk ld lh lr)).1
                  (delMax (.node ll lk ld lh lr)).2.1 nh (.node rl rk rd rh rr)) from rfl]
              rw [entries_delStep, entries]
              simp

/-- A key with no match in the tree is never found by the deletion
descent. -/
theorem deleteGo_none (k : Key) : ∀ t : Tree, matchCount k t = 0 → deleteGo k t = none := by
  intro t
  induction t with
  | nil => intro _; rfl
  | node l nk nd nh r ihl ihr =>
    intro h
    have hdec : matchCount k l + ((if strcmp nk k = 0 then 1 else 0) + matchCount k r) =
        matchCount k (.node l nk nd nh r) := by
      unfold matchCount
      rw [entries, List.filter_append]
      simp only [List.length_append, List.filter_cons]
      by_cases hq : strcmp nk k = 0 <;> simp [hq] <;> omega
    rw [← hdec] at h
    have hroot : strcmp nk k ≠ 0 := by
      intro hq; rw [if_pos hq] at h; omega
    have hl0 : matchCount k l = 0 := by omega
    have hr0 : matchCount k r = 0 := by omega
    rw [deleteGo]
    by_cases hgt : strcmp nk k > 0
    · rw [if_pos hgt, ihl hl0]
    · rw [if_neg hgt]
      have hlt : strcmp nk k < 0 := by omega
      rw [if_pos hlt, ihr hr0]

/-- Sortedness, freshness and entry count after a successful deletion. -/
theorem deleteGo_inv (k : Key) (t t' : Tree) (hdel : deleteGo k t = some t')
    (hs : SortedE t) :
    SortedE t' ∧ (∀ m, Fresh m t → Fresh m t') ∧
    (entries t).length = (entries t').length + 1 := by
  obtain ⟨A, B, k0, d0, hk0, h1, h2⟩ := deleteGo_entries k t t' hdel
  have hsub : (A ++ B).Sublist (A ++ (k0, d0) :: B) :=
    (List.sublist_cons_self (k0, d0) B).append_left A
  refine ⟨?_, ?_, ?_⟩
  · rw [SortedE, h2]
    exact List.Pairwise.sublist hsub (h1 ▸ hs)
  · intro m hf e he
    refine hf e ?_
    rw [h1]
    exact hsub.mem (h2 ▸ he)
  · rw [h1, h2]; simp; omega

/-! ## The container invariant is preserved by every public operation -/

theorem strInsert_inv (t : AVLStrTree) (k : Key) (n : Nat) (h : Inv t n) :
    ∃ res t', strInsert true (some t) (some k) n = some (res, some t') ∧ Inv t' (n + 1) := by
  obtain ⟨hs, hf, hc⟩ := h
  unfold strInsert
  dsimp only
  by_cases hfull : t.nodesCount = t.maxNodes
  · rw [if_pos hfull]
    exact ⟨0, t, rfl, hs, fun e he => lt_trans (hf e he) (Nat.lt_succ_self n), hc⟩
  · rw [if_neg hfull, if_pos rfl]
    rcases hroot : t.root with _ | ⟨l, nk, nd, nh, r⟩
    · refine ⟨t.nodesCount + 1, _, rfl, ?_, ?_, ?_⟩
      · simp [SortedE, entries]
      · intro e he
        simp only [entries, List.mem_append, List.mem_cons] at he
        rcases he with he | he | he
        · simp [entries] at he
        · rw [he]; exact Nat.lt_succ_self n
        · simp [entries] at he
      · rw [hroot] at hc
        simp [size, hc]
    · obtain ⟨hs', hf', hlen⟩ := insertGo_inv k n (.node l nk nd nh r)
        (hroot ▸ hs) (hroot ▸ hf)
      refine ⟨t.nodesCount + 1, _, rfl, hs', hf' (n + 1) (Nat.lt_succ_self n), ?_⟩
      rw [size_eq_length_entries, hlen, ← size_eq_length_entries, ← hroot, ← hc]

theorem strDelete_inv (t : AVLStrTree) (k : Key) (opts : Int) (n : Nat) (h : Inv t n) :
    ∃ res t', strDelete (some t) (some k) opts = (res, some t') ∧ Inv t' n := by
  obtain ⟨hs, hf, hc⟩ := h
  unfold strDelete
  dsimp only
  by_cases hneg : opts < 0
  · rw [if_pos hneg]
    exact ⟨0, t, rfl, hs, hf, hc⟩
  · rw [if_neg hneg]
    rcases hdel : deleteGo k t.root with _ | root'
    · exact ⟨0, t, rfl, hs, hf, hc⟩
    · obtain ⟨hs', hf', hlen⟩ := deleteGo_inv k t.root root' hdel hs
      have hpos : t.root ≠ Tree.nil := by
        intro hnil; rw [hnil] at hdel; simp [deleteGo] at hdel
      have hcount : 1 ≤ t.nodesCount := by
        rcases ht : t.root with _ | _
        · exact absurd ht hpos
        · rw [hc, ht]; simp only [size]; omega
      have hsz : size root' = t.nodesCount - 1 := by
        have h1 : size t.root = t.nodesCount := hc.symm
        rw [size_eq_length_entries] at h1 ⊢
        omega
      by_cases hzero : t.nodesCount - 1 = 0
      · refine ⟨1, _, rfl, ?_⟩
        rw [if_pos hzero]
        exact ⟨by simp [SortedE, entries], by simp [Fresh, entries], by simp [size, hzero]⟩
      · refine ⟨1, _, rfl, ?_⟩
        rw [if_neg hzero]
        exact ⟨hs', hf' n hf, by rw [hsz]⟩

theorem runOpsFrom_inv : ∀ (ops : List Op) (t : AVLStrTree) (n : Nat), Inv t n →
    ∃ m, Inv (runOpsFrom t n ops) m := by
  intro ops
  induction ops with
  | nil => intro t n h; exact ⟨n, h⟩
  | cons op ops ih =>
    intro t n h
    cases op with
    | ins k =>
      obtain ⟨res, t', heq, h'⟩ := strInsert_inv t k n h
      rw [runOpsFrom, heq]
      exact ih t' (n + 1) h'
    | del k =>
      obtain ⟨res, t', heq, h'⟩ := strDelete_inv t k 0 n h
      rw [runOpsFrom, heq]
      exact ih t' (n + 1) ⟨h'.1, fun e he => lt_trans (h'.2.1 e he) (Nat.lt_succ_self n),
        h'.2.2⟩

/-- Every container reachable by running operations from a fresh tree
satisfies the ordering, freshness and count invariant. -/
theorem runOps_inv (ops : List Op) : ∃ m, Inv (runOps ops) m :=
  runOpsFrom_inv ops createStrTree 0
    ⟨by simp [SortedE, createStrTree, entries], by simp [Fresh, createStrTree, entries],
      by simp [createStrTree, size]⟩

/-! ## C4: the in-order traversal with the key projection -/

theorem projOf_keys (l : Tree) (k : Key) (d : Nat) (h : Int) (r : Tree) :
    projOf SEARCH_KEYS (.node l k d h r) = .keyP k := rfl

theorem inODFS_keys : ∀ t : Tree,
    inODFS SEARCH_KEYS t = (entries t).map (fun e => Proj.keyP e.1)
  | .nil => rfl
  | .node l k d h r => by
      rw [inODFS, projOf_keys, entries, inODFS_keys l, inODFS_keys r]
      simp

theorem strDFS_inorder_keys (t : AVLStrTree) (hne : t.root ≠ Tree.nil) :
    strDFS (some t) 64 8 = some (inODFS SEARCH_KEYS t.root) := by
  unfold strDFS
  rw [if_neg (by decide)]
  dsimp only
  rw [if_neg hne]
  rfl

/-- C4.  For every container built by a sequence of inserts and
deletes whose tree is non-empty, the in-order depth-first traversal
with the key projection (`strDFS` with `DFS_IN_ORDER = 64` and
`SEARCH_KEYS = 8`) returns the key of every entry, in in-order entry
order; the sequence has exactly `nodesCount` elements; and the entry
sequence is pairwise `eLT`-ordered: keys are non-decreasing under
`strcmp`, and entries with equal keys appear with strictly decreasing
payloads.  Since `runOps` inserts the running operation index as the
payload, the latter says duplicates of a key appear in reverse
insertion order. -/
theorem inorder_traversal_sorted (ops : List Op) (hne : (runOps ops).root ≠ Tree.nil) :
    strDFS (some (runOps ops)) 64 8 =
      some ((entries (runOps ops).root).map (fun e => Proj.keyP e.1)) ∧
    (entries (runOps ops).root).length = (runOps ops).nodesCount ∧
    (entries (runOps ops).root).Pairwise eLT ∧
    ((entries (runOps ops).root).map Prod.fst).Pairwise
      (fun k1 k2 => strcmp k1 k2 ≤ 0) := by
  obtain ⟨m, hs, hf, hc⟩ := runOps_inv ops
  refine ⟨?_, ?_, hs, ?_⟩
  · rw [strDFS_inorder_keys _ hne, inODFS_keys]
  · rw [hc, size_eq_length_entries]
  · refine (List.pairwise_map).2 (hs.imp ?_)
    intro a b hab
    rcases hab with h | ⟨h, _⟩
    · exact le_of_lt h
    · exact le_of_eq h

/-- Witness for C4 at a concrete input. -/
theorem inorder_traversal_sorted_witness :
    strDFS (some (runOps [Op.ins [97], Op.ins [98]])) 64 8 =
      some ((entries (runOps [Op.ins [97], Op.ins [98]]).root).map
        (fun e => Proj.keyP e.1)) ∧
    (entries (runOps [Op.ins [97], Op.ins [98]]).root).length =
      (runOps [Op.ins [97], Op.ins [98]]).nodesCount ∧
    (entries (runOps [Op.ins [97], Op.ins [98]]).root).Pairwise eLT ∧
    ((entries (runOps [Op.ins [97], Op.ins [98]]).root).map Prod.fst).Pairwise
      (fun k1 k2 => strcmp k1 k2 ≤ 0) :=
  inorder_traversal_sorted [Op.ins [97], Op.ins [98]] (by decide)

/-! ## C10: search stops at the shallowest matching node -/

theorem matchCount_node (k : Key) (l r : Tree) (nk : Key) (nd : Nat) (nh : Int) :
    matchCount k (.node l nk nd nh r) =
      matchCount k l + ((if strcmp nk k = 0 then 1 else 0) + matchCount k r) := by
  unfold matchCount
  rw [entries, List.filter_append]
  simp only [List.length_append, List.filter_cons]
  by_cases hq : strcmp nk k = 0 <;> simp [hq] <;> omega

theorem matchCount_eq_zero {k : Key} {t : Tree}
    (h : ∀ e ∈ entries t, strcmp e.1 k ≠ 0) : matchCount k t = 0 := by
  unfold matchCount
  rw [List.length_eq_zero, List.filter_eq_nil_iff]
  intro e he
  simpa using h e he

/-- The binary-search descent, run on an ordered tree holding at least
one node whose key compares equal to `k`, stops at a matching node that
is an ancestor of every matching node: the whole tree's matches all lie
in the returned subtree. -/
theorem searchStrNode_found (k : Key) : ∀ t : Tree, SortedE t → 0 < matchCount k t →
    ∃ l nk nd nh r, searchStrNode k t = some (.node l nk nd nh r) ∧ strcmp nk k = 0 ∧
      matchCount k (.node l nk nd nh r) = matchCount k t := by
  intro t
  induction t with
  | nil => intro _ h; simp [matchCount, entries] at h
  | node l nk nd nh r ihl ihr =>
    intro hs hpos
    rw [sortedE_node] at hs
    obtain ⟨hsl, hsr, hlroot, hrootr, hlr⟩ := hs
    by_cases hgt : strcmp nk k > 0
    · have hr0 : matchCount k r = 0 := by
        refine matchCount_eq_zero fun e he hq => ?_
        have hle : strcmp nk e.1 ≤ 0 := by
          rcases hrootr e he with h | ⟨h, _⟩
          · exact le_of_lt h
          · exact le_of_eq h
        have := (strcmp_trans nk e.1 k).1 hle (le_of_eq hq)
        omega
      have hroot0 : ¬ strcmp nk k = 0 := by omega
      rw [matchCount_node, if_neg hroot0, hr0] at hpos
      obtain ⟨l', nk', nd', nh', r', hfind, hmatch, hcnt⟩ :=
        ihl hsl (by omega)
      refine ⟨l', nk', nd', nh', r', ?_, hmatch, ?_⟩
      · rw [searchStrNode, if_pos hgt]; exact hfind
      · rw [hcnt, matchCount_node, if_neg hroot0, hr0]
        omega
    · by_cases hlt : strcmp nk k < 0
      · have hl0 : matchCount k l = 0 := by
          refine matchCount_eq_zero fun e he hq => ?_
          have hle : strcmp e.1 nk ≤ 0 := by
            rcases hlroot e he with h | ⟨h, _⟩
            · exact le_of_lt h
            · exact le_of_eq h
          have := (strcmp_trans e.1 nk k).2.2
          have hek : strcmp e.1 k < 0 := (strcmp_trans e.1 nk k).2.1 hle hlt
          omega
        have hroot0 : ¬ strcmp nk k = 0 := by omega
        rw [matchCount_node, if_neg hroot0, hl0] at hpos
        obtain ⟨l', nk', nd', nh', r', hfind, hmatch, hcnt⟩ :=
          ihr hsr (by omega)
        refine ⟨l', nk', nd', nh', r', ?_, hmatch, ?_⟩
        · rw [searchStrNode, if_neg hgt, if_pos hlt]; exact hfind
        · rw [hcnt, matchCount_node, if_neg hroot0, hl0]
          omega
      · have heq : strcmp nk k = 0 := by omega
        exact ⟨l, nk, nd, nh, r, by rw [searchStrNode, if_neg hgt, if_neg hlt], heq, rfl⟩

/-- C10.  On an ordered tree containing two or more nodes whose keys
match `k` exactly, `_searchStrNode` deterministically returns the
matching node nearest the root on the descent path — every matching
node of the tree lies inside the returned subtree — and `strSearch`
returns that node's projection (node handle for `SEARCH_NODES = 16`,
payload for `SEARCH_DATA = 4`). -/
theorem search_duplicates_nearest_root (t : AVLStrTree) (k : Key)
    (hs : SortedE t.root) (hdup : 2 ≤ matchCount k t.root) :
    ∃ l nk nd nh r, searchStrNode k t.root = some (.node l nk nd nh r) ∧
      strcmp nk k = 0 ∧
      matchCount k (.node l nk nd nh r) = matchCount k t.root ∧
      strSearch (some t) k 16 = .nodeRes (.node l nk nd nh r) ∧
      strSearch (some t) k 4 = .data nd := by
  obtain ⟨l, nk, nd, nh, r, hfind, hmatch, hcnt⟩ :=
    searchStrNode_found k t.root hs (by omega)
  refine ⟨l, nk, nd, nh, r, hfind, hmatch, hcnt, ?_, ?_⟩
  · unfold strSearch
    rw [if_neg (by omega : ¬ (16 : Int) ≤ 0)]
    dsimp only
    rw [hfind]
    rfl
  · unfold strSearch
    rw [if_neg (by omega : ¬ (4 : Int) ≤ 0)]
    dsimp only
    rw [hfind]
    rfl

/-- Witness for C10: two inserted duplicates of the key `"a"`. -/
theorem search_duplicates_nearest_root_witness :
    ∃ l nk nd nh r,
      searchStrNode [97] (runOps [Op.ins [97], Op.ins [97]]).root =
        some (.node l nk nd nh r) ∧
      strcmp nk [97] = 0 ∧
      matchCount [97] (.node l nk nd nh r) =
        matchCount [97] (runOps [Op.ins [97], Op.ins [97]]).root ∧
      strSearch (some (runOps [Op.ins [97], Op.ins [97]])) [97] 16 =
        .nodeRes (.node l nk nd nh r) ∧
      strSearch (some (runOps [Op.ins [97], Op.ins [97]])) [97] 4 = .data nd :=
  search_duplicates_nearest_root (runOps [Op.ins [97], Op.ins [97]]) [97]
    (by decide) (by decide)

/-! ## C9: deleting an absent key mutates nothing -/

/-- C9.  For any container and any key with no exact match in its tree
(in particular the empty tree), `strDelete` returns the not-found
result `0` and the container is returned exactly as it was: count,
structure (hence the output of every traversal) are unchanged. -/
theorem strDelete_absent_unchanged (t : AVLStrTree) (k : Key) (opts : Int)
    (h : matchCount k t.root = 0) :
    strDelete (some t) (some k) opts = (0, some t) := by
  unfold strDelete
  by_cases hneg : opts < 0
  · rw [if_pos hneg]
  · rw [if_neg hneg]
    dsimp only
    rw [deleteGo_none k t.root h]

/-- Witness for C9: deleting `"b"` from a tree holding only `"a"`, and
deleting from the empty tree. -/
theorem strDelete_absent_unchanged_witness :
    strDelete (some (runOps [Op.ins [97]])) (some [98]) 0 =
      (0, some (runOps [Op.ins [97]])) ∧
    strDelete (some createStrTree) (some [97]) 0 = (0, some createStrTree) :=
  ⟨strDelete_absent_unchanged (runOps [Op.ins [97]]) [98] 0 (by decide),
   strDelete_absent_unchanged createStrTree [97] 0 (by decide)⟩

/-! ## C7: the exact failure condition of insertion -/

theorem size_rotate (t : Tree) : size (rotate t) = size t := by
  rw [size_eq_length_entries, size_eq_length_entries, entries_rotate]

theorem size_updH (t : Tree) : size (updH t) = size t := by
  rw [size_eq_length_entries, size_eq_length_entries, entries_updH]

theorem insertGo_size (k : Key) (d : Nat) : ∀ t : Tree,
    size (insertGo k d t).1 = size t + 1 := by
  intro t
  induction t with
  | nil => simp [insertGo, size]
  | node l nk nd nh r ihl ihr =>
    rw [insertGo]
    by_cases hcmp : strcmp nk k ≥ 0
    · rw [if_pos hcmp]
      rcases hgo : insertGo k d l with ⟨l', flag⟩
      rw [hgo] at ihl
      dsimp only at ihl
      cases flag
      · dsimp only
        by_cases hb : 2 ≤ (bf (Tree.node l' nk nd nh r)).natAbs
        · rw [if_pos hb]
          dsimp only
          rw [size_rotate]
          simp only [size]
          omega
        · rw [if_neg hb]
          dsimp only
          rw [size_updH]
          simp only [size]
          omega
      · dsimp only
        simp only [size]
        omega
    · rw [if_neg hcmp]
      rcases hgo : insertGo k d r with ⟨r', flag⟩
      rw [hgo] at ihr
      dsimp only at ihr
      cases flag
      · dsimp only
        by_cases hb : 2 ≤ (bf (Tree.node l nk nd nh r')).natAbs
        · rw [if_pos hb]
          dsimp only
          rw [size_rotate]
          simp only [size]
          omega
        · rw [if_neg hb]
          dsimp only
          rw [size_updH]
          simp only [size]
          omega
      · dsimp only
        simp only [size]
        omega

/-- C7.  With succeeding allocation, `strInsert` returns the zero
sentinel with the container unchanged exactly when the key reference is
absent, the container handle is absent, or the count has reached the
capacity; in every other case it returns the incremented count and the
container has gained exactly one node. -/
theorem strInsert_failure_characterization (tree : Option AVLStrTree)
    (key : Option Key) (d : Nat) :
    ((tree = none ∨ key = none ∨ ∃ t, tree = some t ∧ t.nodesCount = t.maxNodes) →
      strInsert true tree key d = some (0, tree)) ∧
    (∀ t k, tree = some t → key = some k → t.nodesCount ≠ t.maxNodes →
      ∃ t', strInsert true tree key d = some (t.nodesCount + 1, some t') ∧
        t'.nodesCount = t.nodesCount + 1 ∧ size t'.root = size t.root + 1 ∧
        t'.maxNodes = t.maxNodes) := by
  constructor
  · rintro (h | h | ⟨t, ht, hfull⟩)
    · subst h; rfl
    · subst h; cases tree <;> rfl
    · subst ht
      unfold strInsert
      cases key with
      | none => rfl
      | some k => dsimp only; rw [if_pos hfull]
  · intro t k ht hk hfull
    subst ht; subst hk
    unfold strInsert
    dsimp only
    rw [if_neg hfull, if_pos rfl]
    rcases hroot : t.root with _ | ⟨l, nk, nd, nh, r⟩
    · exact ⟨_, rfl, rfl, by simp [size], rfl⟩
    · refine ⟨_, rfl, rfl, ?_, rfl⟩
      dsimp only
      rw [insertGo_size]

/-- Witness for C7: a capacity-zero container rejects the insert; a
fresh container accepts it. -/
theorem strInsert_failure_characterization_witness :
    strInsert true (some ⟨Tree.nil, 0, 0⟩) (some [97]) 5 =
      some (0, some ⟨Tree.nil, 0, 0⟩) ∧
    ∃ t', strInsert true (some createStrTree) (some [97]) 5 =
      some (createStrTree.nodesCount + 1, some t') ∧
      t'.nodesCount = createStrTree.nodesCount + 1 ∧
      size t'.root = size createStrTree.root + 1 ∧
      t'.maxNodes = createStrTree.maxNodes :=
  ⟨(strInsert_failure_characterization (some ⟨Tree.nil, 0, 0⟩) (some [97]) 5).1
      (Or.inr (Or.inr ⟨_, rfl, rfl⟩)),
   (strInsert_failure_characterization (some createStrTree) (some [97]) 5).2
      createStrTree [97] rfl rfl (by decide)⟩

/-! ## Exhibits: claims the code violates -/

/-- C1 exhibit.  After the successful operation sequence
insert "e","a","d","b","c","f", delete "e", insert "c" (all succeed:
the container starts empty with the default capacity), the tree
violates the AVL balance invariant on true subtree heights — the root's
true balance factor is 2.  The cause is the stale cached height left by
the delete (see the C3 exhibit), which makes `_strBalanceInsert` judge
the tree balanced. -/
theorem balance_invariant_violated :
    balancedB (runOps [Op.ins [101], Op.ins [97], Op.ins [100], Op.ins [98],
      Op.ins [99], Op.ins [102], Op.del [101], Op.ins [99]]).root = false ∧
    (runOps [Op.ins [101], Op.ins [97], Op.ins [100], Op.ins [98],
      Op.ins [99], Op.ins [102], Op.del [101], Op.ins [99]]).nodesCount = 6 := by
  constructor <;> decide

/-- C3 exhibit.  After insert "b", insert "a", delete "b" the tree is a
single node whose cached height is still `1` while its true height is
`0`: `_strCutOneSonNode` content-swaps the deleted root with its leaf
child and starts `_strBalanceDelete` at `node->_father` (here `NULL`),
so the surviving node object never gets its height updated. -/
theorem stale_height_after_delete :
    heightsOk (runOps [Op.ins [98], Op.ins [97], Op.del [98]]).root = false ∧
    (runOps [Op.ins [98], Op.ins [97], Op.del [98]]).root =
      .node .nil [97] 1 1 .nil := by
  constructor <;> decide

/-- C2 exhibit.  On a tree that contains an exactly matching node,
`strSearch` with the key projection (`SEARCH_KEYS = 8`) returns `NULL`:
the function tests `SEARCH_DATA` and `SEARCH_NODES` but has no
`SEARCH_KEYS` branch.  The same call with the data or node projection
returns the projection of the matching node. -/
theorem strSearch_keys_projection_null :
    strSearch (some (runOps [Op.ins [97]])) [97] 8 = .null ∧
    searchStrNode [97] (runOps [Op.ins [97]]).root =
      some (.node .nil [97] 0 0 .nil) ∧
    strSearch (some (runOps [Op.ins [97]])) [97] 4 = .data 0 ∧
    strSearch (some (runOps [Op.ins [97]])) [97] 16 =
      .nodeRes (.node .nil [97] 0 0 .nil) := by
    refine ⟨?_, ?_, ?_, ?_⟩ <;> decide

/-- C5 exhibit.  When `malloc` fails inside `_createStrNode` during an
insert into the empty container, `strInsert` does not return the zero
sentinel with the container unchanged: the unchecked `NULL` result
leads it to increment `nodesCount` to `1` and return `1` while `_root`
stays `NULL`.  (On a non-empty container the same unchecked `NULL` is
dereferenced by `_strBalanceInsert` — undefined behaviour, `none` in
this embedding.) -/
theorem strInsert_alloc_failure_mutates :
    strInsert false (some createStrTree) (some [97]) 0 =
      some (1, some ⟨Tree.nil, 1, ULONG_MAX⟩) ∧
    strInsert false (some (runOps [Op.ins [97]])) (some [98]) 1 = none := by
  constructor <;> decide

/-! ## C6: the content-swap rotations refine the classical rotations -/

/-- C6.  For every node with a left child, `_strRightRotation` keeps
the pivot node object (and hence the pivot's link from its parent)
in place at the subtree root, exchanges the pivot's payload with its
left child's, and produces, viewed as a tree of key/value payloads,
exactly the classical AVL right rotation of the original payload tree;
the multiset of node objects is unchanged — none is created or
destroyed — and the two `idPayloads` equations exhibit which object
holds which entry before and after: the pivot `nid` ends holding the
former child's entry `(lk, ld)` and the child object `lid` ends
holding the pivot's former entry `(k, d)`.  The final three conjuncts
state the mirrored facts for `_strLeftRotation` on a node with a right
child. -/
theorem rotations_refine_classical (ll : ITree) (lid : Nat) (lk : Key) (ld : Nat)
    (lh : Int) (lr : ITree) (nid : Nat) (k : Key) (d : Nat) (h : Int) (r : ITree) :
    payload (iRotR (.node (.node ll lid lk ld lh lr) nid k d h r)) =
      classicalRotR (payload (.node (.node ll lid lk ld lh lr) nid k d h r)) ∧
    rootId (iRotR (.node (.node ll lid lk ld lh lr) nid k d h r)) = some nid ∧
    ids (iRotR (.node (.node ll lid lk ld lh lr) nid k d h r)) =
      ids (.node (.node ll lid lk ld lh lr) nid k d h r) ∧
    idPayloads (iRotR (.node (.node ll lid lk ld lh lr) nid k d h r)) =
      idPayloads ll + ((nid, lk, ld) ::ₘ (idPayloads lr + ((lid, k, d) ::ₘ idPayloads r))) ∧
    idPayloads (.node (.node ll lid lk ld lh lr) nid k d h r) =
      (idPayloads ll + ((lid, lk, ld) ::ₘ idPayloads lr)) + ((nid, k, d) ::ₘ idPayloads r) ∧
    payload (iRotL (.node ll lid lk ld lh (.node lr nid k d h r))) =
      classicalRotL (payload (.node ll lid lk ld lh (.node lr nid k d h r))) ∧
    rootId (iRotL (.node ll lid lk ld lh (.node lr nid k d h r))) = some lid ∧
    ids (iRotL (.node ll lid lk ld lh (.node lr nid k d h r))) =
      ids (.node ll lid lk ld lh (.node lr nid k d h r)) ∧
    idPayloads (iRotL (.node ll lid lk ld lh (.node lr nid k d h r))) =
      (idPayloads ll + ((nid, lk, ld) ::ₘ idPayloads lr)) + ((lid, k, d) ::ₘ idPayloads r) ∧
    idPayloads (.node ll lid lk ld lh (.node lr nid k d h r)) =
      idPayloads ll + ((lid, lk, ld) ::ₘ (idPayloads lr + ((nid, k, d) ::ₘ idPayloads r))) := by
  refine ⟨rfl, rfl, ?_, rfl, rfl, rfl, rfl, ?_, rfl, rfl⟩
  · show ids ll + (nid ::ₘ (ids lr + (lid ::ₘ ids r))) =
      (ids ll + (lid ::ₘ ids lr)) + (nid ::ₘ ids r)
    simp only [← Multiset.singleton_add]
    abel
  · show (ids ll + (nid ::ₘ ids lr)) + (lid ::ₘ ids r) =
      ids ll + (lid ::ₘ (ids lr + (nid ::ₘ ids r)))
    simp only [← Multiset.singleton_add]
    abel

/-! ## C8: conflicting option flags are honoured, not rejected -/

/-- C8 counterexample.  Supplying both `SEARCH_DATA` and `SEARCH_NODES`
(`opts = 20`) to `strSearch` on a matching tree is not rejected with
the failure result: the first-tested flag (`SEARCH_DATA`) silently
wins and the matching node's payload is returned. -/
theorem conflicting_flags_honored :
    strSearch (some (runOps [Op.ins [97]])) [97] 20 = .data 0 ∧
    SearchOut.data 0 ≠ SearchOut.null := by
  constructor <;> decide

/-- C8 amended.  Supplying zero flags of a mandatory axis yields the
failure result, but supplying more than one flag of an axis is *not*
rejected: every operation resolves its axes by fixed first-tested-wins
precedence (`SEARCH_DATA` before `SEARCH_NODES` in `strSearch`, with
`SEARCH_KEYS` never tested there; `SEARCH_DATA` before `SEARCH_KEYS`
before `SEARCH_NODES` in the traversals; `DFS_PRE_ORDER` before
`DFS_IN_ORDER` before `DFS_POST_ORDER`; `BFS_LEFT_FIRST` before
`BFS_RIGHT_FIRST`).  None of these operations mutates the container. -/
theorem conflicting_flags_first_tested_wins :
    (∀ (t : AVLStrTree) (k : Key) (opts : Int), 0 < opts →
      strSearch (some t) k opts =
        (if hasFlag opts SEARCH_DATA then strSearch (some t) k 4
         else if hasFlag opts SEARCH_NODES then strSearch (some t) k 16
         else .null)) ∧
    (∀ (t : AVLStrTree) (ty opts : Int), 0 < ty → 0 < opts →
      strDFS (some t) ty opts = strDFS (some t) (canonOrder ty) (canonProj opts)) ∧
    (∀ (t : AVLStrTree) (ty opts : Int), 0 < ty → 0 < opts →
      strBFS (some t) ty opts = strBFS (some t) (canonDir ty) (canonProj opts)) := by
  refine ⟨?_, ?_, ?_⟩
  · intro t k opts hpos
    have hp : ¬ opts ≤ 0 := by omega
    have h4 : ¬ (4 : Int) ≤ 0 := by omega
    have h16 : ¬ (16 : Int) ≤ 0 := by omega
    have e1 : hasFlag 4 SEARCH_DATA = true := rfl
    have e2 : hasFlag 16 SEARCH_DATA = false := rfl
    have e3 : hasFlag 16 SEARCH_NODES = true := rfl
    unfold strSearch
    rcases hsn : searchStrNode k t.root with _ | n <;>
      by_cases hD : hasFlag opts SEARCH_DATA <;>
      by_cases hN : hasFlag opts SEARCH_NODES <;>
      simp [hsn, hD, hN, hp, h4, h16, e1, e2, e3]
  · intro t ty opts hty hopts
    have hpt : ¬ ty ≤ 0 := by omega
    have hpo : ¬ opts ≤ 0 := by omega
    have c0 : ((0 : Int) ≤ 0) := le_refl 0
    have c4 : ¬ (4 : Int) ≤ 0 := by omega
    have c8 : ¬ (8 : Int) ≤ 0 := by omega
    have c16 : ¬ (16 : Int) ≤ 0 := by omega
    have c32 : ¬ (32 : Int) ≤ 0 := by omega
    have c64 : ¬ (64 : Int) ≤ 0 := by omega
    have c128 : ¬ (128 : Int) ≤ 0 := by omega
    have n4 : (4 : Nat) ≠ 0 := by decide
    have n8 : (8 : Nat) ≠ 0 := by decide
    have n16 : (16 : Nat) ≠ 0 := by decide
    have n32 : (32 : Nat) ≠ 0 := by decide
    have n64 : (64 : Nat) ≠ 0 := by decide
    have n128 : (128 : Nat) ≠ 0 := by decide
    have e1 : hasFlag 4 4 = true := rfl
    have e2 : hasFlag 8 4 = false := rfl
    have e3 : hasFlag 8 8 = true := rfl
    have e4 : hasFlag 16 4 = false := rfl
    have e5 : hasFlag 16 8 = false := rfl
    have e6 : hasFlag 16 16 = true := rfl
    have f1 : hasFlag 32 32 = true := rfl
    have f2 : hasFlag 64 32 = false := rfl
    have f3 : hasFlag 64 64 = true := rfl
    have f4 : hasFlag 128 32 = false := rfl
    have f5 : hasFlag 128 64 = false := rfl
    have f6 : hasFlag 128 128 = true := rfl
    unfold strDFS canonProj canonOrder
    by_cases hD : hasFlag opts 4 <;>
      by_cases hK : hasFlag opts 8 <;>
      by_cases hN : hasFlag opts 16 <;>
      by_cases hP : hasFlag ty 32 <;>
      by_cases hI : hasFlag ty 64 <;>
      by_cases hO : hasFlag ty 128 <;>
      simp [SEARCH_DATA, SEARCH_KEYS, SEARCH_NODES, DFS_PRE_ORDER, DFS_IN_ORDER,
        DFS_POST_ORDER, hD, hK, hN, hP, hI, hO, hpt, hpo, c0, c4, c8, c16, c32,
        c64, c128, n4, n8, n16, n32, n64, n128, e1, e2, e3, e4, e5, e6,
        f1, f2, f3, f4, f5, f6]
  · intro t ty opts hty hopts
    have hpt : ¬ ty ≤ 0 := by omega
    have hpo : ¬ opts ≤ 0 := by omega
    have c0 : ((0 : Int) ≤ 0) := le_refl 0
    have c4 : ¬ (4 : Int) ≤ 0 := by omega
    have c8 : ¬ (8 : Int) ≤ 0 := by omega
    have c16 : ¬ (16 : Int) ≤ 0 := by omega
    have c256 : ¬ (256 : Int) ≤ 0 := by omega
    have c512 : ¬ (512 : Int) ≤ 0 := by omega
    have n4 : (4 : Nat) ≠ 0 := by decide
    have n8 : (8 : Nat) ≠ 0 := by decide
    have n16 : (16 : Nat) ≠ 0 := by decide
    have n256 : (256 : Nat) ≠ 0 := by decide
    have n512 : (512 : Nat) ≠ 0 := by decide
    have e1 : hasFlag 4 4 = true := rfl
    have e2 : hasFlag 4 8 = false := rfl
    have e3 : hasFlag 4 16 = false := rfl
    have e4 : hasFlag 8 4 = false := rfl
    have e5 : hasFlag 8 8 = true := rfl
    have e6 : hasFlag 8 16 = false := rfl
    have e7 : hasFlag 16 4 = false := rfl
    have e8 : hasFlag 16 8 = false := rfl
    have e9 : hasFlag 16 16 = true := rfl
    have g1 : hasFlag 256 256 = true := rfl
    have g2 : hasFlag 256 512 = false := rfl
    have g3 : hasFlag 512 256 = false := rfl
    have g4 : hasFlag 512 512 = true := rfl
    unfold strBFS canonProj canonDir
    by_cases hL : hasFlag ty 256 <;>
      by_cases hR : hasFlag ty 512 <;>
      by_cases hD : hasFlag opts 4 <;>
      by_cases hK : hasFlag opts 8 <;>
      by_cases hN : hasFlag opts 16 <;>
      simp [SEARCH_DATA, SEARCH_KEYS, SEARCH_NODES, BFS_LEFT_FIRST, BFS_RIGHT_FIRST,
        hL, hR, hD, hK, hN, hpt, hpo, c0, c4, c8, c16, c256, c512,
        n4, n8, n16, n256, n512, e1, e2, e3, e4, e5, e6, e7, e8, e9, g1, g2, g3, g4]

/-- Witness for the amended C8 at concrete conflicting flag words:
`opts = 20` (`DATA|NODES`) for search, `ty = 96` (`PRE|IN`... `96 = 32+64`)
and `opts = 12` (`DATA|KEYS`) for DFS, `ty = 768` (`LEFT|RIGHT`) and
`opts = 28` (`DATA|KEYS|NODES`) for BFS. -/
theorem conflicting_flags_first_tested_wins_witness :
    strSearch (some (runOps [Op.ins [97]])) [97] 20 =
      (if hasFlag 20 SEARCH_DATA then strSearch (some (runOps [Op.ins [97]])) [97] 4
       else if hasFlag 20 SEARCH_NODES then strSearch (some (runOps [Op.ins [97]])) [97] 16
       else .null) ∧
    strDFS (some (runOps [Op.ins [97]])) 96 12 =
      strDFS (some (runOps [Op.ins [97]])) (canonOrder 96) (canonProj 12) ∧
    strBFS (some (runOps [Op.ins [97]])) 768 28 =
      strBFS (some (runOps [Op.ins [97]])) (canonDir 768) (canonProj 28) :=
  ⟨conflicting_flags_first_tested_wins.1 (runOps [Op.ins [97]]) [97] 20 (by decide),
   conflicting_flags_first_tested_wins.2.1 (runOps [Op.ins [97]]) 96 12
     (by decide) (by decide),
   conflicting_flags_first_tested_wins.2.2 (runOps [Op.ins [97]]) 768 28
     (by decide) (by decide)⟩

end AVLStr
